import Mathlib

/-!
Shallow embedding of the GPX route-analysis engine of this repository
(`src/pages/PCS profiler.jsx` and `src/unnamed/part_000`).

The two front-end files duplicate one `analyzeRoute` engine with minor
variants; the embedding below follows the richer `PCS profiler.jsx`
version for the per-climb pipeline (guarded average gradient, max
gradient, 1-based ids, stable sort by start distance) and the
`part_000` version for the course-level climb-weighting block, which
only that file computes.  Where the two files share code (chunking,
climb aggregation, filtering, scoring formula, positional multiplier,
final-zone score) they are literally identical.

Numbers are modelled by `ℚ`: the JavaScript source computes with IEEE
doubles, but every claim under study is about the exact arithmetic of
the formulas.  Note that `part_000` computes the average gradient
without the `lengthKm > 0` guard of `PCS profiler.jsx`; over `ℚ`
(where `x / 0 = 0`) the two variants coincide, so a single definition
models both.

Display-only aggregate fields of the JS result object whose exact
values rest on IEEE infinities over empty lists (`maxEle`, `minEle`,
`totalGain`) are omitted from the result record; no claim mentions
them.
-/

namespace PCS

/-- A track point as consumed by `analyzeRoute`: cumulative distance in
km and (smoothed) elevation in m.  The JS objects also carry `lat`/`lon`
fields, which the analysis never reads and which are copied through
unchanged; they are omitted here. -/
structure Pt where
  dist : ℚ
  ele : ℚ
deriving DecidableEq, Repr

/-- `const CHUNK_SIZE = 0.2` — the route is analyzed in 200 m chunks. -/
def CHUNK_SIZE : ℚ := 1/5

/-- One gradient chunk, as pushed by the chunking loop:
`{ startDist, endDist, gradient, gain, startEle, endEle }`. -/
structure Chunk where
  startDist : ℚ
  endDist : ℚ
  gradient : ℚ
  gain : ℚ
  startEle : ℚ
  endEle : ℚ
deriving DecidableEq, Repr

/-- Build the chunk record for start point `s` and end point `e`:
`dist = end.dist - start.dist`, `gain = end.ele - start.ele`,
`gradient = (gain / (dist * 1000)) * 100`. -/
def mkChunk (s e : Pt) : Chunk :=
  { startDist := s.dist
    endDist := e.dist
    gradient := (e.ele - s.ele) / ((e.dist - s.dist) * 1000) * 100
    gain := e.ele - s.ele
    startEle := s.ele
    endEle := e.ele }

/-- The inner `while` loop of the chunking pass: advance `j` past points
whose distance from the chunk start is `< CHUNK_SIZE`; return the first
point at distance `≥ CHUNK_SIZE` together with the remaining points
from it (inclusive), or `none` if the sequence is exhausted first. -/
def chunkFrom (start : Pt) : List Pt → Option (Pt × List Pt)
  | [] => none
  | p :: rest =>
      if p.dist - start.dist < CHUNK_SIZE then chunkFrom start rest
      else some (p, p :: rest)

/-- The outer `for` loop of the chunking pass.  A chunk is emitted when
the inner loop finds an end point in range, and scanning resumes at
that end point (`i = j - 1; i++`); when the inner loop exhausts the
points no chunk is emitted and scanning resumes at the next point
(`i++`).  The loop runs at most once per point, so `fuel` (instantiated
with the number of points) makes the recursion structural. -/
def buildChunksAux : ℕ → List Pt → List Chunk
  | 0, _ => []
  | _, [] => []
  | fuel + 1, p :: rest =>
      match chunkFrom p rest with
      | some (e, tail) => mkChunk p e :: buildChunksAux fuel tail
      | none => buildChunksAux fuel rest

/-- Step 1 of `analyzeRoute`: break the route into distance chunks. -/
def buildChunks (points : List Pt) : List Chunk :=
  buildChunksAux points.length points

/-- A climb under construction / as detected: the bounds, accumulated
gain and constituent chunks of `currentClimb`. -/
structure Climb where
  startDist : ℚ
  endDist : ℚ
  gain : ℚ
  chunks : List Chunk
deriving DecidableEq, Repr

/-- Start of a new climb, seeded with the chunk's bounds and gain. -/
def climbSeed (ch : Chunk) : Climb :=
  { startDist := ch.startDist, endDist := ch.endDist, gain := ch.gain, chunks := [ch] }

/-- Continuation of the current climb: the end advances and the gain
accumulates. -/
def climbExtend (c : Climb) (ch : Chunk) : Climb :=
  { startDist := c.startDist, endDist := ch.endDist, gain := c.gain + ch.gain
    chunks := c.chunks ++ [ch] }

/-- One step of the climb-detection state machine (the body of the
`chunks.forEach` callback).  The state is `currentClimb : Option Climb`
(`none` = Flat, `some` = Climbing); the second component lists the
climbs pushed by this step.  `isUphill = chunk.gradient > 1.5`. -/
def climbStep (cur : Option Climb) (ch : Chunk) : Option Climb × List Climb :=
  if ch.gradient > 3/2 then
    match cur with
    | none => (some (climbSeed ch), [])
    | some c => (some (climbExtend c ch), [])
  else
    match cur with
    | none => (none, [])
    | some c => (none, [c])

/-- Step 2 of `analyzeRoute`: aggregate chunks into continuous climbs.
After the loop, the last climb is pushed if the route ends uphill. -/
def aggregate : List Chunk → Option Climb → List Climb
  | [], none => []
  | [], some c => [c]
  | ch :: rest, cur => (climbStep cur ch).2 ++ aggregate rest (climbStep cur ch).1

/-- `Math.max(...)` over a list, as used for the max chunk gradient of a
climb.  The `[]` default models the unreachable empty case (a climb
always holds at least one chunk; JS would give `-Infinity`). -/
def listMax : List ℚ → ℚ
  | [] => 0
  | g :: gs => gs.foldl max g

/-- A filtered, scored climb (the element shape of `validClimbs`). -/
structure ScoredClimb where
  startDist : ℚ
  endDist : ℚ
  gain : ℚ
  chunks : List Chunk
  id : ℕ
  name : String
  lengthKm : ℚ
  gradientAvg : ℚ
  maxGradient : ℚ
  rawScore : ℚ
  multiplier : ℚ
  finalScore : ℚ
  distFromFinish : ℚ
deriving DecidableEq, Repr

/-- Step 3 of `analyzeRoute`, per climb: length, guarded average
gradient, max chunk gradient, raw score `(gradientAvg / 2)^2 * lengthKm`,
positional multiplier from `distFromFinish = totalDistance - endDist`
(`0.2` unless a closer threshold matches first), and
`finalScore = rawScore * multiplier`. -/
def scoreClimb (totalDistance : ℚ) (id : ℕ) (c : Climb) : ScoredClimb :=
  let lengthKm := c.endDist - c.startDist
  let gradientAvg := if lengthKm > 0 then c.gain / (lengthKm * 1000) * 100 else 0
  let rawScore := (gradientAvg / 2) ^ 2 * lengthKm
  let distFromFinish := totalDistance - c.endDist
  let multiplier : ℚ :=
    if distFromFinish ≤ 10 then 1
    else if distFromFinish ≤ 25 then 8/10
    else if distFromFinish ≤ 50 then 6/10
    else if distFromFinish ≤ 75 then 4/10
    else 2/10
  { startDist := c.startDist
    endDist := c.endDist
    gain := c.gain
    chunks := c.chunks
    id := id
    name := ""
    lengthKm := lengthKm
    gradientAvg := gradientAvg
    maxGradient := listMax (c.chunks.map (·.gradient))
    rawScore := rawScore
    multiplier := multiplier
    finalScore := rawScore * multiplier
    distFromFinish := distFromFinish }

/-- `climbs.filter(gain > 20).map((c, index) => …)`: score each climb,
assigning 1-based ids in order of appearance. -/
def scoreClimbs (totalDistance : ℚ) : ℕ → List Climb → List ScoredClimb
  | _, [] => []
  | i, c :: cs => scoreClimb totalDistance (i + 1) c :: scoreClimbs totalDistance (i + 1) cs

/-- The aggregate analysis result (`setFileData({...})`). -/
structure CourseAnalysis where
  points : List Pt
  totalDistance : ℚ
  totalClimbing : ℚ
  climbs : List ScoredClimb
  totalScore : ℚ
  finalProfileScore : ℚ
  overallMetric : ℚ
  finalZoneMetric : ℚ
  tpvClimbWeighting : ℚ
deriving Repr

/-- Gross climbing: the sum of positive elevation deltas between
consecutive points. -/
def totalClimbingOf : List Pt → ℚ
  | [] => 0
  | _ :: [] => 0
  | p :: q :: rest =>
      (if q.ele - p.ele > 0 then q.ele - p.ele else 0) + totalClimbingOf (q :: rest)

/-- The `analyzeRoute(points, totalDistance)` engine: chunking, climb
aggregation, filtering/scoring (with the stable sort by `startDist` of
`PCS profiler.jsx`), course totals, and the climb-weighting block of
`part_000` (`tpvClimbWeighting`, capping the final-zone ratio at 0.8 and
the percentage at 100, with the dedicated rule for courses under
20 km). -/
def analyzeRoute (points : List Pt) (totalDistance : ℚ) : CourseAnalysis :=
  let chunks := buildChunks points
  let climbs := aggregate chunks none
  let validClimbs :=
    (scoreClimbs totalDistance 0 (climbs.filter (fun c => c.gain > 20))).insertionSort
      (fun a b => a.startDist ≤ b.startDist)
  let totalScore := (validClimbs.map (·.finalScore)).sum
  let finalZoneStart := totalDistance - 25
  let finalClimbs := validClimbs.filter (fun c => c.endDist ≥ finalZoneStart)
  let finalProfileScore := (finalClimbs.map (·.finalScore)).sum
  let overallMetric := totalScore / 100
  let finalZoneUncapped := if totalDistance > 0 then finalProfileScore / 25 else 0
  let finalZoneMetricCapped := min finalZoneUncapped (8/10)
  let ratioVal :=
    if totalDistance > 0 ∧ totalDistance < 20 then totalScore / totalDistance
    else max overallMetric finalZoneMetricCapped
  { points := points
    totalDistance := totalDistance
    totalClimbing := totalClimbingOf points
    climbs := validClimbs
    totalScore := totalScore
    finalProfileScore := finalProfileScore
    overallMetric := overallMetric
    finalZoneMetric := finalZoneMetricCapped
    tpvClimbWeighting := min (ratioVal * 100) 100 }

/-! Section: Lap expansion (the `useEffect` recalculation in `App`) -/

/-- One lap's points: copy every point, adding the lap offset to its
cumulative distance (`baseData.points.map(p => ({...p, dist: p.dist + lapOffset}))`).
The base list itself is untouched. -/
def lapPoints (base : List Pt) (off : ℚ) : List Pt :=
  base.map (fun p => { p with dist := p.dist + off })

/-- Multi-lap point generation: for lap index `i` in `[0, laps)`, the
points offset by `i * baseDistance`, concatenated in lap order. -/
def expandLaps (base : List Pt) (baseDistance : ℚ) (laps : ℕ) : List Pt :=
  (List.range laps).flatMap (fun i => lapPoints base ((i : ℚ) * baseDistance))

/-- `const totalDistance = baseData.distance * laps`. -/
def lapTotalDistance (baseDistance : ℚ) (laps : ℕ) : ℚ :=
  baseDistance * (laps : ℚ)

/-! Section: Track building (`processGPX`)

The haversine distance function is transcendental (sin/cos/atan2 over
floats) and is passed as an abstract parameter `hav`; every claim about
track building is independent of its values. -/

/-- A raw GPX sample: latitude, longitude, elevation (a missing `ele`
tag is already normalized to `0` by the parsing glue). -/
structure RawPt where
  lat : ℚ
  lon : ℚ
  ele : ℚ
deriving DecidableEq, Repr

/-- The running-total pass of `processGPX`: each point after the first
gets `totalDist += hav(prev, cur)` as its cumulative distance. -/
def accDist (hav : RawPt → RawPt → ℚ) : RawPt → ℚ → List RawPt → List Pt
  | _, _, [] => []
  | prev, d, p :: rest =>
      { dist := d + hav prev p, ele := p.ele } :: accDist hav p (d + hav prev p) rest

/-- `pointsWithDist`: the first sample has cumulative distance 0. -/
def trackPoints (hav : RawPt → RawPt → ℚ) : List RawPt → List Pt
  | [] => []
  | p :: rest => { dist := 0, ele := p.ele } :: accDist hav p 0 rest

/-- The final value of the `totalDist` accumulator: the last point's
cumulative distance (0 for a track of fewer than two samples). -/
def rawTotalDist (hav : RawPt → RawPt → ℚ) (raw : List RawPt) : ℚ :=
  ((trackPoints hav raw).getLast?.map Pt.dist).getD 0

/-- `smoothElevation(points, windowSize)`: every output elevation is the
arithmetic mean of the elevations whose index is within `windowSize`
positions, clamped to the sequence bounds. -/
def smoothElevation (points : List Pt) (windowSize : ℕ) : List Pt :=
  (List.range points.length).map (fun i =>
    let lo := i - windowSize
    let hi := min (points.length - 1) (i + windowSize)
    let window := (List.range' lo (hi + 1 - lo)).map (fun j => (points.getD j ⟨0, 0⟩).ele)
    { dist := (points.getD i ⟨0, 0⟩).dist, ele := window.sum / (window.length : ℚ) })

/-- The error taxonomy of the track builder: an empty raw sample
sequence is fatal (`processGPX` refuses to produce track data, so the
analysis never runs). -/
inductive TrackError where
  | emptyTrack
deriving DecidableEq, Repr

/-- Successful track building: the smoothed points and the single-lap
distance (`setBaseData({ points: smoothedPoints, distance: totalDist })`). -/
structure BaseData where
  points : List Pt
  distance : ℚ
deriving Repr

/-- `processGPX` as a fallible track builder: an empty sample sequence
fails with `EmptyTrackError` (in the source: an early return that never
sets `baseData`); otherwise the cumulative-distance and smoothing passes
run.  `windowSize` is 3 at the call site. -/
def buildTrack (hav : RawPt → RawPt → ℚ) (raw : List RawPt) : Except TrackError BaseData :=
  match raw with
  | [] => .error .emptyTrack
  | _ :: _ =>
      .ok { points := smoothElevation (trackPoints hav raw) 3
            distance := rawTotalDist hav raw }

/-- The full caller flow: build the base track, and only on success
expand laps and analyze.  `none` models "no (partial) result". -/
def processTrack (hav : RawPt → RawPt → ℚ) (raw : List RawPt) (laps : ℕ) :
    Option CourseAnalysis :=
  match buildTrack hav raw with
  | .error _ => none
  | .ok base =>
      some (analyzeRoute (expandLaps base.points base.distance laps)
        (lapTotalDistance base.distance laps))

/-! Section: Spec-side definitions (for refinement-style claims) -/

/-- Modelled from the spec's words (§4.6 step 9): the claimed
climb-weighting formula — `ratio = overallScore / totalDistance` for
`0 < totalDistance < 20`, else
`ratio = max(overallScore / 100, min(finalZoneScore / 25, 0.8))`, and
`climbWeightingPercent = min(ratio * 100, 100)`. -/
def specClimbWeighting (overallScore finalZoneScore totalDistance : ℚ) : ℚ :=
  min ((if 0 < totalDistance ∧ totalDistance < 20 then overallScore / totalDistance
        else max (overallScore / 100) (min (finalZoneScore / 25) (8/10))) * 100) 100

/-- Modelled from the spec's words (§4.6 step 4): the claimed positional
multiplier as a function of `distanceFromFinish`, thresholds checked in
ascending order, first match wins. -/
def specPositionMultiplier (distanceFromFinish : ℚ) : ℚ :=
  if distanceFromFinish ≤ 10 then 1
  else if distanceFromFinish ≤ 25 then 8/10
  else if distanceFromFinish ≤ 50 then 6/10
  else if distanceFromFinish ≤ 75 then 4/10
  else 2/10

/-! Section: Orderedness predicates -/

/-- The point sequence has non-decreasing cumulative distance (the
`Point` invariant of the data model). -/
def DistMono (ps : List Pt) : Prop :=
  ps.Pairwise (fun a b => a.dist ≤ b.dist)

/-- Adjacent chunks share their boundary point: the end distance and
end elevation of one are the start distance and start elevation of the
next. -/
def adjChunk (a b : Chunk) : Prop :=
  a.endDist = b.startDist ∧ a.endEle = b.startEle

/-- Chunk `a` lies strictly before chunk `b`. -/
def chunkOrd (a b : Chunk) : Prop :=
  a.endDist ≤ b.startDist ∧ a.startDist < b.startDist

/-- Climb `a` lies strictly before climb `b` (non-overlap and strict
order of start distances). -/
def climbOrd (a b : Climb) : Prop :=
  a.endDist ≤ b.startDist ∧ a.startDist < b.startDist

/-- `climbOrd` carried over to scored climbs. -/
def scoredOrd (a b : ScoredClimb) : Prop :=
  a.endDist ≤ b.startDist ∧ a.startDist < b.startDist

/-- All points of the list are within one chunk size of each other. -/
def Cramped (l : List Pt) : Prop :=
  ∀ p ∈ l, ∀ q ∈ l, q.dist - p.dist < CHUNK_SIZE

/-- A detected climb is well-formed: it has a first and a last chunk,
its bounds are theirs, its gain both sums the chunk gains and
telescopes to last end elevation minus first start elevation, and it is
at least one chunk long. -/
def ClimbOK (c : Climb) : Prop :=
  ∃ f l, c.chunks.head? = some f ∧ c.chunks.getLast? = some l ∧
    c.startDist = f.startDist ∧ c.endDist = l.endDist ∧
    c.gain = l.endEle - f.startEle ∧
    c.gain = (c.chunks.map (·.gain)).sum ∧
    c.startDist + CHUNK_SIZE ≤ c.endDist

/-! Section: Concrete tracks for witnesses and scenarios -/

/-- Scenario B of the spec: a 50 km course, flat for 45 km, then a
single monotonic 5 km climb gaining exactly 250 m (average gradient 5%)
whose summit is exactly at the finish. -/
def scenarioB : List Pt := [⟨0, 0⟩, ⟨45, 0⟩, ⟨50, 250⟩]

/-- A short track with two separated climbs (25 m gain each over one
200 m chunk, split by a flat chunk). -/
def twoClimbs : List Pt := [⟨0, 0⟩, ⟨1/5, 25⟩, ⟨2/5, 25⟩, ⟨3/5, 50⟩]

/-! Section: Chunking lemmas -/

theorem chunkFrom_some {s : Pt} {l : List Pt} {e : Pt} {t : List Pt}
    (h : chunkFrom s l = some (e, t)) :
    t.head? = some e ∧ t <:+ l ∧ CHUNK_SIZE ≤ e.dist - s.dist := by
  induction l with
  | nil => simp [chunkFrom] at h
  | cons p rest ih =>
    rw [chunkFrom] at h
    split at h
    · obtain ⟨h1, h2, h3⟩ := ih h
      exact ⟨h1, h2.trans (List.suffix_cons p rest), h3⟩
    · next hge =>
      obtain ⟨rfl, rfl⟩ : e = p ∧ t = p :: rest := by
        simpa [eq_comm] using h
      exact ⟨rfl, List.suffix_refl _, le_of_not_lt hge⟩

theorem chunkFrom_none {s : Pt} {l : List Pt} (h : chunkFrom s l = none) :
    ∀ p ∈ l, p.dist - s.dist < CHUNK_SIZE := by
  induction l with
  | nil => simp
  | cons p rest ih =>
    rw [chunkFrom] at h
    split at h
    · next hlt =>
      intro q hq
      rcases List.mem_cons.mp hq with rfl | hq
      · exact hlt
      · exact ih h q hq
    · simp at h

theorem buildChunksAux_size :
    ∀ (fuel : ℕ) (l : List Pt), ∀ c ∈ buildChunksAux fuel l,
      CHUNK_SIZE ≤ c.endDist - c.startDist := by
  intro fuel
  induction fuel with
  | zero => simp [buildChunksAux]
  | succ fuel ih =>
    intro l c hc
    match l with
    | [] => simp [buildChunksAux] at hc
    | p :: rest =>
      rcases hcf : chunkFrom p rest with _ | ⟨e, t⟩
      · rw [buildChunksAux, hcf] at hc
        exact ih rest c hc
      · rw [buildChunksAux, hcf] at hc
        rcases List.mem_cons.mp hc with rfl | hc
        · simpa [mkChunk] using (chunkFrom_some hcf).2.2
        · exact ih t c hc

theorem buildChunksAux_origin :
    ∀ (fuel : ℕ) (l : List Pt), ∀ c ∈ buildChunksAux fuel l,
      ∃ a ∈ l, ∃ b ∈ l, c = mkChunk a b := by
  intro fuel
  induction fuel with
  | zero => simp [buildChunksAux]
  | succ fuel ih =>
    intro l c hc
    match l with
    | [] => simp [buildChunksAux] at hc
    | p :: rest =>
      rcases hcf : chunkFrom p rest with _ | ⟨e, t⟩
      · rw [buildChunksAux, hcf] at hc
        obtain ⟨a, ha, b, hb, hab⟩ := ih rest c hc
        exact ⟨a, List.mem_cons_of_mem p ha, b, List.mem_cons_of_mem p hb, hab⟩
      · rw [buildChunksAux, hcf] at hc
        obtain ⟨h1, h2, _⟩ := chunkFrom_some hcf
        have hsub : ∀ x ∈ t, x ∈ p :: rest := fun x hx =>
          List.mem_cons_of_mem p (h2.sublist.subset hx)
        rcases List.mem_cons.mp hc with rfl | hc
        · refine ⟨p, List.mem_cons_self p rest, e, ?_, rfl⟩
          exact hsub e (List.mem_of_mem_head? (by simp [h1]))
        · obtain ⟨a, ha, b, hb, hab⟩ := ih t c hc
          exact ⟨a, hsub a ha, b, hsub b hb, hab⟩

theorem buildChunksAux_eq_nil :
    ∀ (fuel : ℕ) {l : List Pt}, Cramped l → buildChunksAux fuel l = [] := by
  intro fuel
  induction fuel with
  | zero => intro l _; simp [buildChunksAux]
  | succ fuel ih =>
    intro l hl
    match l with
    | [] => simp [buildChunksAux]
    | p :: rest =>
      have hnone : chunkFrom p rest = none := by
        rcases hcf : chunkFrom p rest with _ | ⟨e, t⟩
        · rfl
        · exfalso
          obtain ⟨h1, h2, h3⟩ := chunkFrom_some hcf
          have he : e ∈ rest := h2.sublist.subset (List.mem_of_mem_head? (by simp [h1]))
          have := hl p (List.mem_cons_self p rest) e (List.mem_cons_of_mem p he)
          linarith
      rw [buildChunksAux, hnone]
      exact ih fun x hx y hy =>
        hl x (List.mem_cons_of_mem p hx) y (List.mem_cons_of_mem p hy)

theorem cramped_of_none {p : Pt} {rest : List Pt} (hm : DistMono (p :: rest))
    (h : chunkFrom p rest = none) : Cramped (p :: rest) := by
  have hC : (0 : ℚ) < CHUNK_SIZE := by norm_num [CHUNK_SIZE]
  intro x hx y hy
  have hpx : p.dist ≤ x.dist := by
    rcases List.mem_cons.mp hx with rfl | hx
    · exact le_refl _
    · exact (List.pairwise_cons.mp hm).1 x hx
  rcases List.mem_cons.mp hy with rfl | hy
  · linarith
  · have := chunkFrom_none h y hy
    linarith

theorem buildChunksAux_head :
    ∀ (fuel : ℕ) {l : List Pt} {c : Chunk} {cs : List Chunk}, DistMono l →
      buildChunksAux fuel l = c :: cs →
      ∃ p rest, l = p :: rest ∧ c.startDist = p.dist ∧ c.startEle = p.ele := by
  intro fuel
  induction fuel with
  | zero => intro l c cs _ h; simp [buildChunksAux] at h
  | succ fuel ih =>
    intro l c cs hm h
    match l with
    | [] => simp [buildChunksAux] at h
    | p :: rest =>
      rcases hcf : chunkFrom p rest with _ | ⟨e, t⟩
      · exfalso
        have hnil := buildChunksAux_eq_nil (fuel + 1) (cramped_of_none hm hcf)
        rw [hnil] at h
        exact List.noConfusion h
      · rw [buildChunksAux, hcf] at h
        obtain ⟨rfl, -⟩ := List.cons.injEq .. ▸ h
        exact ⟨p, rest, rfl, rfl, rfl⟩

theorem distMono_tail {p : Pt} {rest : List Pt} (hm : DistMono (p :: rest)) :
    DistMono rest :=
  (List.pairwise_cons.mp hm).2

theorem buildChunksAux_chain :
    ∀ (fuel : ℕ) {l : List Pt}, DistMono l →
      List.Chain' adjChunk (buildChunksAux fuel l) := by
  intro fuel
  induction fuel with
  | zero => intro l _; simp [buildChunksAux]
  | succ fuel ih =>
    intro l hm
    match l with
    | [] => simp [buildChunksAux]
    | p :: rest =>
      rcases hcf : chunkFrom p rest with _ | ⟨e, t⟩
      · rw [buildChunksAux, hcf]
        exact ih (distMono_tail hm)
      · rw [buildChunksAux, hcf]
        obtain ⟨h1, h2, -⟩ := chunkFrom_some hcf
        have hmt : DistMono t :=
          hm.sublist (h2.sublist.trans (List.sublist_cons_self p rest))
        refine List.chain'_cons'.mpr ⟨?_, ih hmt⟩
        intro y hy
        rcases hhd : buildChunksAux fuel t with _ | ⟨c, cs⟩
        · rw [hhd] at hy; simp at hy
        · rw [hhd] at hy
          simp only [List.head?_cons, Option.mem_some_iff] at hy
          subst hy
          obtain ⟨q, t', rfl, hsd, hse⟩ := buildChunksAux_head fuel hmt hhd
          have hq : q = e := by simpa using h1
          subst hq
          exact ⟨by simp [mkChunk, hsd], by simp [mkChunk, hse]⟩

theorem pairwise_chunkOrd :
    ∀ {cs : List Chunk}, List.Chain' adjChunk cs →
      (∀ c ∈ cs, CHUNK_SIZE ≤ c.endDist - c.startDist) → cs.Pairwise chunkOrd := by
  have hC : (0 : ℚ) < CHUNK_SIZE := by norm_num [CHUNK_SIZE]
  intro cs
  induction cs with
  | nil => simp
  | cons c rest ih =>
    intro hc hs
    have hrest : rest.Pairwise chunkOrd :=
      ih hc.tail fun x hx => hs x (List.mem_cons_of_mem c hx)
    refine List.pairwise_cons.mpr ⟨?_, hrest⟩
    intro b hb
    cases rest with
    | nil => simp at hb
    | cons c2 rest' =>
      have hadj : adjChunk c c2 := (List.chain'_cons.mp hc).1
      have hcsize := hs c (List.mem_cons_self c _)
      have hc2size := hs c2 (List.mem_cons_of_mem c (List.mem_cons_self c2 _))
      rcases List.mem_cons.mp hb with rfl | hb'
      · exact ⟨le_of_eq hadj.1, by have := hadj.1; linarith⟩
      · have hrel : chunkOrd c2 b := (List.pairwise_cons.mp hrest).1 b hb'
        have h1 := hadj.1
        have h2 := hrel.1
        have h3 := hrel.2
        exact ⟨by linarith, by linarith⟩

/-! Section: Climb-aggregation lemmas -/

/-- The chunks of the current state machine state. -/
def curChunks : Option Climb → List Chunk
  | none => []
  | some c => c.chunks

theorem climbStep_up_none {ch : Chunk} (h : ch.gradient > 3/2) :
    climbStep none ch = (some (climbSeed ch), []) := by simp [climbStep, h]

theorem climbStep_up_some {ch : Chunk} {c : Climb} (h : ch.gradient > 3/2) :
    climbStep (some c) ch = (some (climbExtend c ch), []) := by simp [climbStep, h]

theorem climbStep_flat_none {ch : Chunk} (h : ¬ ch.gradient > 3/2) :
    climbStep none ch = (none, []) := by simp [climbStep, h]

theorem climbStep_flat_some {ch : Chunk} {c : Climb} (h : ¬ ch.gradient > 3/2) :
    climbStep (some c) ch = (none, [c]) := by simp [climbStep, h]

theorem aggregate_cons (ch : Chunk) (rest : List Chunk) (cur : Option Climb) :
    aggregate (ch :: rest) cur = (climbStep cur ch).2 ++ aggregate rest (climbStep cur ch).1 := by
  cases cur <;> rfl

theorem aggregate_start_origin :
    ∀ (cs : List Chunk) (cur : Option Climb) (cl : Climb), cl ∈ aggregate cs cur →
      (∃ c, cur = some c ∧ cl.startDist = c.startDist) ∨
        ∃ ch ∈ cs, cl.startDist = ch.startDist := by
  intro cs
  induction cs with
  | nil =>
    intro cur cl hcl
    cases cur with
    | none => simp [aggregate] at hcl
    | some c =>
      simp only [aggregate, List.mem_singleton] at hcl
      exact Or.inl ⟨c, rfl, by rw [hcl]⟩
  | cons ch rest ih =>
    intro cur cl hcl
    by_cases hg : ch.gradient > 3/2
    · cases cur with
      | none =>
        rw [aggregate_cons, climbStep_up_none hg, List.nil_append] at hcl
        rcases ih _ cl hcl with ⟨c, hc, hs⟩ | ⟨ch', h1, h2⟩
        · have hce : climbSeed ch = c := Option.some.inj hc
          refine Or.inr ⟨ch, List.mem_cons_self ch rest, ?_⟩
          rw [hs, ← hce]; rfl
        · exact Or.inr ⟨ch', List.mem_cons_of_mem ch h1, h2⟩
      | some c =>
        rw [aggregate_cons, climbStep_up_some hg, List.nil_append] at hcl
        rcases ih _ cl hcl with ⟨c', hc', hs⟩ | ⟨ch', h1, h2⟩
        · have hce : climbExtend c ch = c' := Option.some.inj hc'
          exact Or.inl ⟨c, rfl, by rw [hs, ← hce]; rfl⟩
        · exact Or.inr ⟨ch', List.mem_cons_of_mem ch h1, h2⟩
    · cases cur with
      | none =>
        rw [aggregate_cons, climbStep_flat_none hg, List.nil_append] at hcl
        rcases ih _ cl hcl with ⟨c, hc, _⟩ | ⟨ch', h1, h2⟩
        · exact absurd hc (by simp)
        · exact Or.inr ⟨ch', List.mem_cons_of_mem ch h1, h2⟩
      | some c =>
        rw [aggregate_cons, climbStep_flat_some hg] at hcl
        rcases List.mem_cons.mp hcl with rfl | hcl'
        · exact Or.inl ⟨cl, rfl, rfl⟩
        · rcases ih _ cl hcl' with ⟨c', hc', _⟩ | ⟨ch', h1, h2⟩
          · exact absurd hc' (by simp)
          · exact Or.inr ⟨ch', List.mem_cons_of_mem ch h1, h2⟩

theorem aggregate_chunks_sub :
    ∀ (cs : List Chunk) (cur : Option Climb) (cl : Climb), cl ∈ aggregate cs cur →
      ∀ k ∈ cl.chunks, (∃ c, cur = some c ∧ k ∈ c.chunks) ∨ k ∈ cs := by
  intro cs
  induction cs with
  | nil =>
    intro cur cl hcl k hk
    cases cur with
    | none => simp [aggregate] at hcl
    | some c =>
      simp only [aggregate, List.mem_singleton] at hcl
      exact Or.inl ⟨c, rfl, hcl ▸ hk⟩
  | cons ch rest ih =>
    intro cur cl hcl k hk
    by_cases hg : ch.gradient > 3/2
    · cases cur with
      | none =>
        rw [aggregate_cons, climbStep_up_none hg, List.nil_append] at hcl
        rcases ih _ cl hcl k hk with ⟨c, hc, hkc⟩ | hkr
        · have hce : climbSeed ch = c := Option.some.inj hc
          rw [← hce] at hkc
          simp only [climbSeed, List.mem_singleton] at hkc
          exact Or.inr (hkc ▸ List.mem_cons_self ch rest)
        · exact Or.inr (List.mem_cons_of_mem ch hkr)
      | some c =>
        rw [aggregate_cons, climbStep_up_some hg, List.nil_append] at hcl
        rcases ih _ cl hcl k hk with ⟨c', hc', hkc⟩ | hkr
        · have hce : climbExtend c ch = c' := Option.some.inj hc'
          rw [← hce] at hkc
          simp only [climbExtend, List.mem_append, List.mem_singleton] at hkc
          rcases hkc with hkc | rfl
          · exact Or.inl ⟨c, rfl, hkc⟩
          · exact Or.inr (List.mem_cons_self k rest)
        · exact Or.inr (List.mem_cons_of_mem ch hkr)
    · cases cur with
      | none =>
        rw [aggregate_cons, climbStep_flat_none hg, List.nil_append] at hcl
        rcases ih _ cl hcl k hk with ⟨c, hc, _⟩ | hkr
        · exact absurd hc (by simp)
        · exact Or.inr (List.mem_cons_of_mem ch hkr)
      | some c =>
        rw [aggregate_cons, climbStep_flat_some hg] at hcl
        rcases List.mem_cons.mp hcl with rfl | hcl'
        · exact Or.inl ⟨cl, rfl, hk⟩
        · rcases ih _ cl hcl' k hk with ⟨c', hc', _⟩ | hkr
          · exact absurd hc' (by simp)
          · exact Or.inr (List.mem_cons_of_mem ch hkr)

theorem aggregate_ok :
    ∀ (cs : List Chunk) (cur : Option Climb),
      cs.Pairwise chunkOrd →
      (∀ ch ∈ cs, CHUNK_SIZE ≤ ch.endDist - ch.startDist) →
      (∀ ch ∈ cs, ch.gain = ch.endEle - ch.startEle) →
      List.Chain' adjChunk (curChunks cur ++ cs) →
      (∀ c, cur = some c → ClimbOK c ∧ ∀ ch ∈ cs, c.endDist ≤ ch.startDist) →
      (∀ cl ∈ aggregate cs cur, ClimbOK cl) ∧ (aggregate cs cur).Pairwise climbOrd := by
  have hC : (0 : ℚ) < CHUNK_SIZE := by norm_num [CHUNK_SIZE]
  intro cs
  induction cs with
  | nil =>
    intro cur _ _ _ _ hcur
    cases cur with
    | none => exact ⟨by simp [aggregate], by simp [aggregate]⟩
    | some c =>
      refine ⟨?_, by simp [aggregate]⟩
      intro cl hcl
      simp only [aggregate, List.mem_singleton] at hcl
      exact hcl ▸ (hcur c rfl).1
  | cons ch rest ih =>
    intro cur hp hsz hg hchain hcur
    have hp' : rest.Pairwise chunkOrd := (List.pairwise_cons.mp hp).2
    have hpch : ∀ ch' ∈ rest, chunkOrd ch ch' := (List.pairwise_cons.mp hp).1
    have hsz' : ∀ c ∈ rest, CHUNK_SIZE ≤ c.endDist - c.startDist :=
      fun c hc => hsz c (List.mem_cons_of_mem ch hc)
    have hg' : ∀ c ∈ rest, c.gain = c.endEle - c.startEle :=
      fun c hc => hg c (List.mem_cons_of_mem ch hc)
    by_cases hgrad : ch.gradient > 3/2
    · cases cur with
      | none =>
        rw [aggregate_cons, climbStep_up_none hgrad, List.nil_append]
        apply ih (some (climbSeed ch)) hp' hsz' hg'
        · simpa [curChunks, climbSeed] using hchain
        · intro c hc
          have hce : climbSeed ch = c := Option.some.inj hc
          subst hce
          constructor
          · refine ⟨ch, ch, rfl, rfl, rfl, rfl, ?_, by simp [climbSeed], ?_⟩
            · exact hg ch (List.mem_cons_self ch rest)
            · have := hsz ch (List.mem_cons_self ch rest)
              simp only [climbSeed]
              linarith
          · exact fun ch' hch' => (hpch ch' hch').1
      | some c =>
        rw [aggregate_cons, climbStep_up_some hgrad, List.nil_append]
        obtain ⟨hok, hsep⟩ := hcur c rfl
        obtain ⟨f, l, hf, hl, hsd, hed, hgain, hsum, hsize⟩ := hok
        have hchain0 : List.Chain' adjChunk (c.chunks ++ ch :: rest) := by
          simpa [curChunks] using hchain
        have hlink : adjChunk l ch := by
          obtain ⟨-, -, h3⟩ := List.chain'_append.mp hchain0
          exact h3 l hl ch rfl
        apply ih (some (climbExtend c ch)) hp' hsz' hg'
        · simpa [curChunks, climbExtend, List.append_assoc] using hchain0
        · intro c' hc'
          have hce : climbExtend c ch = c' := Option.some.inj hc'
          subst hce
          have hchsz := hsz ch (List.mem_cons_self ch rest)
          have hchg := hg ch (List.mem_cons_self ch rest)
          have hsepch := hsep ch (List.mem_cons_self ch rest)
          constructor
          · obtain ⟨t', ht'⟩ : ∃ t', c.chunks = f :: t' := by
              cases hcc : c.chunks with
              | nil => rw [hcc] at hf; simp at hf
              | cons x xs =>
                rw [hcc] at hf
                simp only [List.head?_cons, Option.some.injEq] at hf
                exact ⟨xs, by rw [hf]⟩
            refine ⟨f, ch, ?_, ?_, ?_, rfl, ?_, ?_, ?_⟩
            · simp [climbExtend, ht']
            · simp [climbExtend, List.getLast?_concat]
            · simpa [climbExtend] using hsd
            · have h1 := hlink.2
              simp only [climbExtend]
              rw [hgain, hchg, h1]
              ring
            · simp only [climbExtend, List.map_append, List.sum_append, List.map_cons,
                List.map_nil, List.sum_cons, List.sum_nil]
              rw [hsum]
              ring
            · simp only [climbExtend]
              linarith
          · exact fun ch' hch' => (hpch ch' hch').1
    · cases cur with
      | none =>
        rw [aggregate_cons, climbStep_flat_none hgrad, List.nil_append]
        apply ih none hp' hsz' hg'
        · have : List.Chain' adjChunk (ch :: rest) := by simpa [curChunks] using hchain
          simpa [curChunks] using this.tail
        · intro c hc; exact absurd hc (by simp)
      | some c =>
        rw [aggregate_cons, climbStep_flat_some hgrad]
        obtain ⟨hok, hsep⟩ := hcur c rfl
        have hchain' : List.Chain' adjChunk (curChunks none ++ rest) := by
          have h0 : List.Chain' adjChunk (c.chunks ++ ch :: rest) := by
            simpa [curChunks] using hchain
          have h1 : List.Chain' adjChunk (ch :: rest) := (List.chain'_append.mp h0).2.1
          simpa [curChunks] using h1.tail
        have hrec := ih none hp' hsz' hg' hchain' (fun c' hc' => absurd hc' (by simp))
        obtain ⟨f, l, hf, hl, hsd, hed, hgain, hsum, hsize⟩ := hok
        constructor
        · intro cl hcl
          rcases List.mem_cons.mp hcl with rfl | hcl'
          · exact ⟨f, l, hf, hl, hsd, hed, hgain, hsum, hsize⟩
          · exact hrec.1 cl hcl'
        · refine List.pairwise_cons.mpr ⟨?_, hrec.2⟩
          intro b hb
          rcases aggregate_start_origin rest none b hb with ⟨c', hc', _⟩ | ⟨ch', h1, h2⟩
          · exact absurd hc' (by simp)
          · have hsep' := hsep ch' (List.mem_cons_of_mem ch h1)
            exact ⟨h2 ▸ hsep', by rw [h2]; linarith⟩

/-! Section: Scoring-layer lemmas -/

theorem scoreClimbs_mem {td : ℚ} :
    ∀ {i : ℕ} {cs : List Climb} {sc : ScoredClimb}, sc ∈ scoreClimbs td i cs →
      ∃ c ∈ cs, ∃ j, sc = scoreClimb td j c := by
  intro i cs
  induction cs generalizing i with
  | nil => intro sc h; simp [scoreClimbs] at h
  | cons c cs ih =>
    intro sc h
    rw [scoreClimbs] at h
    rcases List.mem_cons.mp h with rfl | h'
    · exact ⟨c, List.mem_cons_self c cs, i + 1, rfl⟩
    · obtain ⟨c', hc', j, hj⟩ := ih h'
      exact ⟨c', List.mem_cons_of_mem c hc', j, hj⟩

theorem scoreClimbs_pairwise {td : ℚ} :
    ∀ {i : ℕ} {cs : List Climb}, cs.Pairwise climbOrd →
      (scoreClimbs td i cs).Pairwise scoredOrd := by
  intro i cs
  induction cs generalizing i with
  | nil => intro _; simp [scoreClimbs]
  | cons c cs ih =>
    intro hp
    rw [scoreClimbs]
    refine List.pairwise_cons.mpr ⟨?_, ih (List.pairwise_cons.mp hp).2⟩
    intro b hb
    obtain ⟨c', hc', j, rfl⟩ := scoreClimbs_mem hb
    have h := (List.pairwise_cons.mp hp).1 c' hc'
    exact ⟨h.1, h.2⟩

theorem sorted_of_scoredOrd {l : List ScoredClimb} (h : l.Pairwise scoredOrd) :
    l.Sorted (fun a b => a.startDist ≤ b.startDist) :=
  h.imp (fun hab => le_of_lt hab.2)

theorem insertionSort_self {l : List ScoredClimb} (h : l.Pairwise scoredOrd) :
    l.insertionSort (fun a b => a.startDist ≤ b.startDist) = l :=
  List.Sorted.insertionSort_eq (sorted_of_scoredOrd h)

theorem analyzeRoute_climbs (ps : List Pt) (td : ℚ) :
    (analyzeRoute ps td).climbs =
      (scoreClimbs td 0
          ((aggregate (buildChunks ps) none).filter (fun c => c.gain > 20))).insertionSort
        (fun a b => a.startDist ≤ b.startDist) := rfl

/-- Every scored climb of the result is the image of a well-formed
detected climb; under monotone distances the output list is strictly
ordered. -/
theorem validClimbs_ok {ps : List Pt} {td : ℚ} (hm : DistMono ps) :
    (analyzeRoute ps td).climbs.Pairwise scoredOrd ∧
      ∀ sc ∈ (analyzeRoute ps td).climbs, ∃ c ∈ aggregate (buildChunks ps) none, ∃ j,
        sc = scoreClimb td j c ∧ ClimbOK c := by
  have hchain : List.Chain' adjChunk (buildChunks ps) := buildChunksAux_chain _ hm
  have hsz : ∀ c ∈ buildChunks ps, CHUNK_SIZE ≤ c.endDist - c.startDist :=
    buildChunksAux_size _ _
  have hgain : ∀ c ∈ buildChunks ps, c.gain = c.endEle - c.startEle := by
    intro c hc
    obtain ⟨a, -, b, -, rfl⟩ := buildChunksAux_origin _ _ c hc
    rfl
  have hp : (buildChunks ps).Pairwise chunkOrd := pairwise_chunkOrd hchain hsz
  have hagg := aggregate_ok (buildChunks ps) none hp hsz hgain
    (by simpa [curChunks] using hchain) (fun c hc => absurd hc (by simp))
  have hfil : ((aggregate (buildChunks ps) none).filter
      (fun c => c.gain > 20)).Pairwise climbOrd := hagg.2.filter _
  have hscored := @scoreClimbs_pairwise td 0 _ hfil
  rw [analyzeRoute_climbs, insertionSort_self hscored]
  refine ⟨hscored, ?_⟩
  intro sc hsc
  obtain ⟨c, hc, j, rfl⟩ := scoreClimbs_mem hsc
  have hcmem : c ∈ aggregate (buildChunks ps) none := List.mem_of_mem_filter hc
  exact ⟨c, hcmem, j, rfl, hagg.1 c hcmem⟩

/-- Without any hypothesis: every member of the output climb list is a
`scoreClimb` image. -/
theorem analyzeRoute_mem_climbs {ps : List Pt} {td : ℚ} {sc : ScoredClimb}
    (h : sc ∈ (analyzeRoute ps td).climbs) : ∃ c j, sc = scoreClimb td j c := by
  rw [analyzeRoute_climbs] at h
  have h' := (List.perm_insertionSort _ _).mem_iff.mp h
  obtain ⟨c, -, j, rfl⟩ := scoreClimbs_mem h'
  exact ⟨c, j, rfl⟩

theorem scoreClimb_multiplier_eq (td : ℚ) (j : ℕ) (c : Climb) :
    (scoreClimb td j c).multiplier = specPositionMultiplier (td - c.endDist) := rfl

theorem scoreClimb_rawScore_nonneg (td : ℚ) (j : ℕ) (c : Climb) :
    0 ≤ (scoreClimb td j c).rawScore := by
  by_cases hl : c.endDist - c.startDist > 0
  · have he : (scoreClimb td j c).rawScore =
        (c.gain / ((c.endDist - c.startDist) * 1000) * 100 / 2) ^ 2 *
          (c.endDist - c.startDist) := by
      simp [scoreClimb, hl]
    rw [he]
    exact mul_nonneg (sq_nonneg _) (le_of_lt hl)
  · have he : (scoreClimb td j c).rawScore = ((0:ℚ) / 2) ^ 2 * (c.endDist - c.startDist) := by
      simp [scoreClimb, hl]
    rw [he]
    norm_num

theorem scoreClimb_multiplier_nonneg (td : ℚ) (j : ℕ) (c : Climb) :
    0 ≤ (scoreClimb td j c).multiplier := by
  rw [scoreClimb_multiplier_eq]
  simp only [specPositionMultiplier]
  split_ifs <;> norm_num

theorem scoreClimb_finalScore_nonneg (td : ℚ) (j : ℕ) (c : Climb) :
    0 ≤ (scoreClimb td j c).finalScore :=
  mul_nonneg (scoreClimb_rawScore_nonneg td j c) (scoreClimb_multiplier_nonneg td j c)

theorem analyzeRoute_totalScore_nonneg (ps : List Pt) (td : ℚ) :
    0 ≤ (analyzeRoute ps td).totalScore := by
  have he : (analyzeRoute ps td).totalScore =
      ((analyzeRoute ps td).climbs.map (·.finalScore)).sum := rfl
  rw [he]
  apply List.sum_nonneg
  intro x hx
  obtain ⟨y, hy, rfl⟩ := List.mem_map.mp hx
  obtain ⟨c, j, rfl⟩ := analyzeRoute_mem_climbs hy
  exact scoreClimb_finalScore_nonneg td j c

theorem analyzeRoute_finalProfileScore_nonneg (ps : List Pt) (td : ℚ) :
    0 ≤ (analyzeRoute ps td).finalProfileScore := by
  have he : (analyzeRoute ps td).finalProfileScore =
      (((analyzeRoute ps td).climbs.filter
          (fun c => c.endDist ≥ td - 25)).map (·.finalScore)).sum := rfl
  rw [he]
  apply List.sum_nonneg
  intro x hx
  obtain ⟨y, hy, rfl⟩ := List.mem_map.mp hx
  obtain ⟨c, j, rfl⟩ := analyzeRoute_mem_climbs (List.mem_of_mem_filter hy)
  exact scoreClimb_finalScore_nonneg td j c

/-- Detected climbs (before filtering/scoring) are well-formed and
strictly ordered, for any monotone point sequence. -/
theorem detected_ok {ps : List Pt} (hm : DistMono ps) :
    (∀ cl ∈ aggregate (buildChunks ps) none, ClimbOK cl) ∧
      (aggregate (buildChunks ps) none).Pairwise climbOrd := by
  have hchain : List.Chain' adjChunk (buildChunks ps) := buildChunksAux_chain _ hm
  have hsz : ∀ c ∈ buildChunks ps, CHUNK_SIZE ≤ c.endDist - c.startDist :=
    buildChunksAux_size _ _
  have hgain : ∀ c ∈ buildChunks ps, c.gain = c.endEle - c.startEle := by
    intro c hc
    obtain ⟨a, -, b, -, rfl⟩ := buildChunksAux_origin _ _ c hc
    rfl
  have hp : (buildChunks ps).Pairwise chunkOrd := pairwise_chunkOrd hchain hsz
  exact aggregate_ok (buildChunks ps) none hp hsz hgain
    (by simpa [curChunks] using hchain) (fun c hc => absurd hc (by simp))

theorem mem_of_getLast?_eq {α : Type} {l : List α} {a : α} (h : l.getLast? = some a) :
    a ∈ l := by
  have hx : a ∈ l.getLast? := by simp [h]
  obtain ⟨hne, ha⟩ := List.mem_getLast?_eq_getLast hx
  rw [ha]
  exact List.getLast_mem hne

/-! Section: Lap-expansion lemmas -/

theorem lapPoints_length (base : List Pt) (off : ℚ) :
    (lapPoints base off).length = base.length := by
  simp [lapPoints]

theorem lapPoints_zero (base : List Pt) : lapPoints base 0 = base := by
  simp only [lapPoints, add_zero]
  exact List.map_id base

theorem expandLaps_succ (base : List Pt) (d : ℚ) (n : ℕ) :
    expandLaps base d (n + 1) = expandLaps base d n ++ lapPoints base ((n : ℚ) * d) := by
  simp [expandLaps, List.range_succ]

theorem expandLaps_length (base : List Pt) (d : ℚ) :
    ∀ n, (expandLaps base d n).length = n * base.length := by
  intro n
  induction n with
  | zero => simp [expandLaps]
  | succ n ih =>
    rw [expandLaps_succ, List.length_append, ih, lapPoints_length, Nat.succ_mul]

theorem expandLaps_one (base : List Pt) (d : ℚ) : expandLaps base d 1 = base := by
  have h : expandLaps base d 1 = lapPoints base ((0 : ℚ) * d) := by
    simp [expandLaps, List.range_succ]
  rw [h, zero_mul, lapPoints_zero]

theorem expandLaps_slice (base : List Pt) (d : ℚ) :
    ∀ (laps i : ℕ), i < laps →
      ((expandLaps base d laps).drop (i * base.length)).take base.length =
        lapPoints base ((i : ℚ) * d) := by
  intro laps
  induction laps with
  | zero => intro i hi; exact absurd hi (Nat.not_lt_zero i)
  | succ n ih =>
    intro i hi
    rw [expandLaps_succ]
    rcases Nat.lt_succ_iff_lt_or_eq.mp hi with hi' | rfl
    · have h2 : (i + 1) * base.length ≤ n * base.length :=
        Nat.mul_le_mul_right _ hi'
      rw [Nat.succ_mul] at h2
      have hd1 : i * base.length ≤ (expandLaps base d n).length := by
        rw [expandLaps_length]
        omega
      rw [List.drop_append_of_le_length hd1]
      have hlen2 : base.length ≤ ((expandLaps base d n).drop (i * base.length)).length := by
        rw [List.length_drop, expandLaps_length]
        omega
      rw [List.take_append_of_le_length hlen2]
      exact ih i hi'
    · have hlen : (expandLaps base d i).length = i * base.length := expandLaps_length base d i
      rw [← hlen, List.drop_left, ← lapPoints_length base ((i : ℚ) * d), List.take_length]

/-! Section: Claim theorems -/

/-- Claim C1: for every analysis result (under the spec's precondition
that a non-positive total distance never reaches this stage), the climb
weighting percent follows the claimed formula — `ratio = overallScore /
totalDistance` when `0 < totalDistance < 20`, otherwise
`ratio = max(overallScore / 100, min(finalZoneScore / 25, 0.8))` — with
`climbWeightingPercent = min(ratio * 100, 100)`, hence always in
`[0, 100]`. -/
theorem climb_weighting_formula (ps : List Pt) (td : ℚ) (h : 0 < td) :
    (analyzeRoute ps td).tpvClimbWeighting =
      specClimbWeighting (analyzeRoute ps td).totalScore
        (analyzeRoute ps td).finalProfileScore td ∧
      0 ≤ (analyzeRoute ps td).tpvClimbWeighting ∧
      (analyzeRoute ps td).tpvClimbWeighting ≤ 100 := by
  have hts := analyzeRoute_totalScore_nonneg ps td
  have htpv : (analyzeRoute ps td).tpvClimbWeighting =
      min ((if td > 0 ∧ td < 20 then (analyzeRoute ps td).totalScore / td
        else max ((analyzeRoute ps td).totalScore / 100)
          (min (if td > 0 then (analyzeRoute ps td).finalProfileScore / 25 else 0)
            (8/10))) * 100) 100 := rfl
  have hr : 0 ≤ (if td > 0 ∧ td < 20 then (analyzeRoute ps td).totalScore / td
      else max ((analyzeRoute ps td).totalScore / 100)
        (min (if td > 0 then (analyzeRoute ps td).finalProfileScore / 25 else 0)
          (8/10))) := by
    split_ifs with h1
    · exact div_nonneg hts h.le
    · exact le_trans (div_nonneg hts (by norm_num)) (le_max_left _ _)
  refine ⟨?_, ?_, ?_⟩
  · rw [htpv]
    simp only [specClimbWeighting, if_pos h]
  · rw [htpv]
    exact le_min (mul_nonneg hr (by norm_num)) (by norm_num)
  · rw [htpv]
    exact min_le_right _ _

/-- Witness for C1 at the empty track with total distance 30. -/
theorem climb_weighting_formula_witness :
    (0 : ℚ) < 30 ∧
      ((analyzeRoute [] 30).tpvClimbWeighting =
        specClimbWeighting (analyzeRoute [] 30).totalScore
          (analyzeRoute [] 30).finalProfileScore 30 ∧
        0 ≤ (analyzeRoute [] 30).tpvClimbWeighting ∧
        (analyzeRoute [] 30).tpvClimbWeighting ≤ 100) :=
  ⟨by norm_num, climb_weighting_formula [] 30 (by norm_num)⟩

/-- Claim C2 (counterexample): for the Scenario B track — a single
monotonic 5 km climb gaining exactly 250 m with its summit at the
finish of a 50 km course — the analysis yields `rawScore = 125/4 =
31.25`, not `62.5` as claimed: `(averageGradient / 2)^2 * lengthKm =
(5/2)^2 * 5 = 31.25`. -/
theorem scenarioB_rawScore_counterexample :
    (analyzeRoute scenarioB 50).climbs.map (·.rawScore) = [125/4] ∧
      ((125 : ℚ)/4 ≠ 125/2) := by
  constructor
  · norm_num [scenarioB, analyzeRoute, buildChunks, buildChunksAux, chunkFrom, mkChunk,
      CHUNK_SIZE, aggregate, climbStep, climbSeed, climbExtend, scoreClimbs, scoreClimb,
      listMax, List.insertionSort, List.orderedInsert]
  · norm_num

/-- Claim C2 (amended): for the Scenario B input the analysis yields
`rawScore = 31.25`, `positionMultiplier = 1.0`, `finalScore = 31.25`,
`overallScore = 31.25`, and `climbWeightingPercent = 80`. -/
theorem scenarioB_values :
    (analyzeRoute scenarioB 50).climbs.map
        (fun c => (c.rawScore, c.multiplier, c.finalScore)) = [(125/4, 1, 125/4)] ∧
      (analyzeRoute scenarioB 50).totalScore = 125/4 ∧
      (analyzeRoute scenarioB 50).tpvClimbWeighting = 80 := by
  norm_num [scenarioB, analyzeRoute, buildChunks, buildChunksAux, chunkFrom, mkChunk,
    CHUNK_SIZE, aggregate, climbStep, climbSeed, climbExtend, scoreClimbs, scoreClimb,
    listMax, List.insertionSort, List.orderedInsert]

/-- Claim C3: for every retained climb the position multiplier is the
claimed step function of `distFromFinish = totalDistance - endDist`
(1.0 up to 10 km, 0.8 up to 25, 0.6 up to 50, 0.4 up to 75, 0.2
otherwise, first match winning), and `finalScore = rawScore *
multiplier`. -/
theorem position_multiplier_spec (ps : List Pt) (td : ℚ) (sc : ScoredClimb)
    (hsc : sc ∈ (analyzeRoute ps td).climbs) :
    sc.distFromFinish = td - sc.endDist ∧
      sc.multiplier = specPositionMultiplier sc.distFromFinish ∧
      sc.finalScore = sc.rawScore * sc.multiplier := by
  obtain ⟨c, j, rfl⟩ := analyzeRoute_mem_climbs hsc
  exact ⟨rfl, rfl, rfl⟩

/-- A 200 m climb track used by witnesses. -/
def demoTrack : List Pt := [⟨0, 0⟩, ⟨1/5, 25⟩]

/-- The scored climb the analysis produces for `demoTrack` on a 50 km
course. -/
def demoScored : ScoredClimb :=
  { startDist := 0, endDist := 1/5, gain := 25, chunks := [⟨0, 1/5, 25/2, 25, 0, 25⟩]
    id := 1, name := "", lengthKm := 1/5, gradientAvg := 25/2, maxGradient := 25/2
    rawScore := 125/16, multiplier := 3/5, finalScore := 75/16, distFromFinish := 249/5 }

/-- Witness for C3 at a concrete retained climb. -/
theorem position_multiplier_spec_witness :
    demoScored ∈ (analyzeRoute demoTrack 50).climbs ∧
      (demoScored.distFromFinish = 50 - demoScored.endDist ∧
        demoScored.multiplier = specPositionMultiplier demoScored.distFromFinish ∧
        demoScored.finalScore = demoScored.rawScore * demoScored.multiplier) := by
  have hmem : demoScored ∈ (analyzeRoute demoTrack 50).climbs := by
    norm_num [demoTrack, demoScored, analyzeRoute, buildChunks, buildChunksAux, chunkFrom,
      mkChunk, CHUNK_SIZE, aggregate, climbStep, climbSeed, climbExtend, scoreClimbs,
      scoreClimb, listMax, List.insertionSort, List.orderedInsert]
  exact ⟨hmem, position_multiplier_spec demoTrack 50 demoScored hmem⟩

/-- Claim C4: on a point sequence with non-decreasing cumulative
distance, the emitted chunks are back-to-back (each end distance is the
next start distance) and every emitted chunk spans at least
`CHUNK_SIZE` (so a trailing partial chunk is dropped, never emitted). -/
theorem chunking_invariants (ps : List Pt) (hm : DistMono ps) :
    List.Chain' (fun a b => a.endDist = b.startDist) (buildChunks ps) ∧
      ∀ c ∈ buildChunks ps, CHUNK_SIZE ≤ c.endDist - c.startDist :=
  ⟨(buildChunksAux_chain _ hm).imp (fun _ _ hab => hab.1), buildChunksAux_size _ _⟩

/-- Witness for C4 on a concrete monotone track. -/
theorem chunking_invariants_witness :
    DistMono twoClimbs ∧
      (List.Chain' (fun a b => a.endDist = b.startDist) (buildChunks twoClimbs) ∧
        ∀ c ∈ buildChunks twoClimbs, CHUNK_SIZE ≤ c.endDist - c.startDist) := by
  have hm : DistMono twoClimbs := by
    norm_num [DistMono, twoClimbs, List.pairwise_cons]
  exact ⟨hm, chunking_invariants twoClimbs hm⟩

/-- Claim C5: the state machine treats a chunk as uphill exactly when
its gradient is strictly above 1.5: a chunk at exactly 1.5 neither
opens nor extends a climb and closes any open climb, while a chunk
strictly above 1.5 opens (in Flat) or extends (in Climbing). -/
theorem uphill_threshold_strict (ch chU : Chunk) (c : Climb)
    (hb : ch.gradient = 3/2) (hu : chU.gradient > 3/2) :
    (climbStep none ch = (none, []) ∧ climbStep (some c) ch = (none, [c])) ∧
      climbStep none chU = (some (climbSeed chU), []) ∧
      climbStep (some c) chU = (some (climbExtend c chU), []) := by
  have hnot : ¬ ch.gradient > 3/2 := by rw [hb]; exact lt_irrefl _
  exact ⟨⟨climbStep_flat_none hnot, climbStep_flat_some hnot⟩,
    climbStep_up_none hu, climbStep_up_some hu⟩

/-- Witness for C5 at concrete chunks with gradients exactly 1.5 and
5. -/
theorem uphill_threshold_strict_witness :
    (Chunk.gradient ⟨0, 1/5, 3/2, 3, 0, 3⟩ = 3/2 ∧
        Chunk.gradient ⟨0, 1/5, 5, 10, 0, 10⟩ > 3/2) ∧
      ((climbStep none ⟨0, 1/5, 3/2, 3, 0, 3⟩ = (none, []) ∧
          climbStep (some ⟨0, 1/5, 10, [⟨0, 1/5, 5, 10, 0, 10⟩]⟩) ⟨0, 1/5, 3/2, 3, 0, 3⟩ =
            (none, [⟨0, 1/5, 10, [⟨0, 1/5, 5, 10, 0, 10⟩]⟩])) ∧
        climbStep none ⟨0, 1/5, 5, 10, 0, 10⟩ =
          (some (climbSeed ⟨0, 1/5, 5, 10, 0, 10⟩), []) ∧
        climbStep (some ⟨0, 1/5, 10, [⟨0, 1/5, 5, 10, 0, 10⟩]⟩) ⟨0, 1/5, 5, 10, 0, 10⟩ =
          (some (climbExtend ⟨0, 1/5, 10, [⟨0, 1/5, 5, 10, 0, 10⟩]⟩ ⟨0, 1/5, 5, 10, 0, 10⟩),
            [])) :=
  ⟨⟨by norm_num, by norm_num⟩,
    uphill_threshold_strict _ _ _ (by norm_num) (by norm_num)⟩

/-- Claim C6: for every analysis of a monotone point sequence, adjacent
climbs in the output list satisfy `endDist ≤ next.startDist` and
`startDist < next.startDist` — climbs are non-overlapping and ordered
by start distance. -/
theorem climbs_nonoverlap_sorted (ps : List Pt) (td : ℚ) (hm : DistMono ps) :
    List.Chain' (fun a b => a.endDist ≤ b.startDist ∧ a.startDist < b.startDist)
      (analyzeRoute ps td).climbs :=
  ((validClimbs_ok hm).1).chain'

/-- Witness for C6 on a track with two retained climbs. -/
theorem climbs_nonoverlap_sorted_witness :
    DistMono twoClimbs ∧
      List.Chain' (fun a b => a.endDist ≤ b.startDist ∧ a.startDist < b.startDist)
        (analyzeRoute twoClimbs 50).climbs := by
  have hm : DistMono twoClimbs := by
    norm_num [DistMono, twoClimbs, List.pairwise_cons]
  exact ⟨hm, climbs_nonoverlap_sorted twoClimbs 50 hm⟩

/-- Claim C7: the expanded course's total distance is `laps` times the
single-lap distance, lap `i`'s slice of the expanded sequence is the
base points offset by `i * baseDistance`, the first half for two laps
is exactly the single-lap sequence, and the base list itself is
returned unchanged for one lap (expansion never mutates it). -/
theorem lap_expansion (base : List Pt) (d : ℚ) (laps i : ℕ)
    (_h1 : 1 ≤ laps) (hi : i < laps) :
    lapTotalDistance d laps = (laps : ℚ) * lapTotalDistance d 1 ∧
      expandLaps base d 1 = base ∧
      (expandLaps base d 2).take base.length = base ∧
      ((expandLaps base d laps).drop (i * base.length)).take base.length =
        lapPoints base ((i : ℚ) * d) := by
  refine ⟨?_, expandLaps_one base d, ?_, expandLaps_slice base d laps i hi⟩
  · simp only [lapTotalDistance, Nat.cast_one, mul_one]
    ring
  · have h := expandLaps_slice base d 2 0 (by norm_num)
    simpa [lapPoints_zero] using h

/-- Witness for C7 at a two-point base track, two laps, second lap. -/
theorem lap_expansion_witness :
    ((1 : ℕ) ≤ 2 ∧ (1 : ℕ) < 2) ∧
      (lapTotalDistance 1 2 = (2 : ℚ) * lapTotalDistance 1 1 ∧
        expandLaps [⟨0, 0⟩, ⟨1, 5⟩] 1 1 = [⟨0, 0⟩, ⟨1, 5⟩] ∧
        (expandLaps [⟨0, 0⟩, ⟨1, 5⟩] 1 2).take (List.length [(⟨0, 0⟩ : Pt), ⟨1, 5⟩]) =
          [⟨0, 0⟩, ⟨1, 5⟩] ∧
        ((expandLaps [⟨0, 0⟩, ⟨1, 5⟩] 1 2).drop
              (1 * List.length [(⟨0, 0⟩ : Pt), ⟨1, 5⟩])).take
            (List.length [(⟨0, 0⟩ : Pt), ⟨1, 5⟩]) =
          lapPoints [⟨0, 0⟩, ⟨1, 5⟩] ((1 : ℚ) * 1)) :=
  ⟨⟨by norm_num, by norm_num⟩,
    lap_expansion [⟨0, 0⟩, ⟨1, 5⟩] 1 2 1 (by norm_num) (by norm_num)⟩

/-- Claim C8: an empty raw sample sequence makes track building fail
with `EmptyTrackError`, and the caller produces no (partial) analysis
result. -/
theorem empty_track_error (hav : RawPt → RawPt → ℚ) (laps : ℕ) :
    buildTrack hav [] = .error .emptyTrack ∧ processTrack hav [] laps = none :=
  ⟨rfl, rfl⟩

/-- Claim C9: every retained climb of a monotone track has
`lengthKm ≥ CHUNK_SIZE > 0` — so the `lengthKm ≤ 0` guard branch of the
average-gradient computation is unreachable — and its average gradient
equals the unguarded formula `gain / (lengthKm * 1000) * 100`. -/
theorem average_gradient_guard (ps : List Pt) (td : ℚ) (hm : DistMono ps) :
    ∀ sc ∈ (analyzeRoute ps td).climbs,
      CHUNK_SIZE ≤ sc.lengthKm ∧ 0 < sc.lengthKm ∧
        sc.gradientAvg = sc.gain / (sc.lengthKm * 1000) * 100 := by
  intro sc hsc
  obtain ⟨c, -, j, rfl, hok⟩ := (validClimbs_ok hm).2 sc hsc
  obtain ⟨f, l, -, -, -, -, -, -, hsize⟩ := hok
  have hC : (0 : ℚ) < CHUNK_SIZE := by norm_num [CHUNK_SIZE]
  have hlen : CHUNK_SIZE ≤ c.endDist - c.startDist := by linarith
  have hpos : (0 : ℚ) < c.endDist - c.startDist := lt_of_lt_of_le hC hlen
  refine ⟨hlen, hpos, ?_⟩
  have he : (scoreClimb td j c).gradientAvg =
      if c.endDist - c.startDist > 0 then c.gain / ((c.endDist - c.startDist) * 1000) * 100
      else 0 := rfl
  rw [he, if_pos hpos]
  rfl

/-- Witness for C9 on the Scenario B track. -/
theorem average_gradient_guard_witness :
    DistMono scenarioB ∧
      ∀ sc ∈ (analyzeRoute scenarioB 50).climbs,
        CHUNK_SIZE ≤ sc.lengthKm ∧ 0 < sc.lengthKm ∧
          sc.gradientAvg = sc.gain / (sc.lengthKm * 1000) * 100 := by
  have hm : DistMono scenarioB := by
    norm_num [DistMono, scenarioB, List.pairwise_cons]
  exact ⟨hm, average_gradient_guard scenarioB 50 hm⟩

/-- Claim C10: every detected climb's accumulated gain is the sum of
its chunk gains, and — because consecutive chunks share their boundary
point — it telescopes to the smoothed elevation at the climb's end
point minus the smoothed elevation at its start point. -/
theorem climb_gain_telescopes (ps : List Pt) (hm : DistMono ps) :
    ∀ cl ∈ aggregate (buildChunks ps) none,
      cl.gain = (cl.chunks.map (·.gain)).sum ∧
        ∃ a ∈ ps, ∃ b ∈ ps, cl.startDist = a.dist ∧ cl.endDist = b.dist ∧
          cl.gain = b.ele - a.ele := by
  intro cl hcl
  obtain ⟨f, l, hf, hl, hsd, hed, hgain, hsum, -⟩ := (detected_ok hm).1 cl hcl
  refine ⟨hsum, ?_⟩
  have hfmem : f ∈ cl.chunks := List.mem_of_mem_head? (by simp [hf])
  have hlmem : l ∈ cl.chunks := mem_of_getLast?_eq hl
  have hf' : f ∈ buildChunks ps := by
    rcases aggregate_chunks_sub _ none cl hcl f hfmem with ⟨c, hc, -⟩ | h
    · exact absurd hc (by simp)
    · exact h
  have hl' : l ∈ buildChunks ps := by
    rcases aggregate_chunks_sub _ none cl hcl l hlmem with ⟨c, hc, -⟩ | h
    · exact absurd hc (by simp)
    · exact h
  obtain ⟨a, ha, b, hb, rfl⟩ := buildChunksAux_origin _ _ f hf'
  obtain ⟨a2, ha2, b2, hb2, rfl⟩ := buildChunksAux_origin _ _ l hl'
  exact ⟨a, ha, b2, hb2, by rw [hsd]; rfl, by rw [hed]; rfl, by rw [hgain]; rfl⟩

/-- Witness for C10 on the Scenario B track. -/
theorem climb_gain_telescopes_witness :
    DistMono scenarioB ∧
      ∀ cl ∈ aggregate (buildChunks scenarioB) none,
        cl.gain = (cl.chunks.map (·.gain)).sum ∧
          ∃ a ∈ scenarioB, ∃ b ∈ scenarioB, cl.startDist = a.dist ∧ cl.endDist = b.dist ∧
            cl.gain = b.ele - a.ele := by
  have hm : DistMono scenarioB := by
    norm_num [DistMono, scenarioB, List.pairwise_cons]
  exact ⟨hm, climb_gain_telescopes scenarioB hm⟩

end PCS
